import Mathlib

set_option linter.unusedVariables false

namespace GoLedger

/-! Shallow embedding of the journal scanner of src/parse/lex.go.

Conventions of the embedding:
* Go runes are `Option Char`; `none` is the eof sentinel (`const eof = -1`).
* The input string is a `List Char`; positions (`Pos`, byte offsets in the
  source) are rune indices into that list.
* The `items` channel is embedded as the list of items emitted so far, in
  emission order.
* `unicode.IsDigit` and `unicode.IsLetter` are embedded as the ASCII
  `Char.isDigit` and `Char.isAlpha`; all runes exercised here are ASCII.
* The source's `width` field exists only to let `backup` undo the most
  recent `next`; in the scanner every `backup` directly follows a `next`,
  so the embedding models a backup by resuming from the pre-`next` cursor.
* `lexer.name` (diagnostics only), `lastPos` and `lineNumber` (consumer-side
  line reporting), `parenDepth` (never used by the scanning logic), `accept`
  and `acceptRun` (never called), and the consumer-side `nextItem` and
  `drain` are not embedded.
* Each Go state function (`stateFn`) is a Lean function from `lexer` to
  `Option scanState × lexer`: `none` is the nil state that terminates the
  run loop. The internal loop of `lexPostings` is unrolled one iteration
  per step, with its local `expectIndent` flag carried by the state.
-/

/-- itemType identifies the type of lex items, in the iota order of the
source declaration. -/
inductive itemType where
  | itemError
  | itemEOF
  | itemString
  | itemNote
  | itemJournal
  | itemJournalItem
  | itemDate
  | itemSpace
  | itemEOL
  | itemText
  | itemEqual
  | itemAsterisk
  | itemExclamation
  | itemSemicolon
  | itemCommodity
  | itemIdentifier
  | itemLeftParen
  | itemRightParen
  | itemNeg
  | itemQuantity
  | itemTilde
  | itemPeriodExpr
  | itemDot
  | itemStatus
  | itemAccountName
  | itemAccount
  | itemBeginAutomatedXact
  | itemBeginPeriodicXact
  | itemBeginXact
  | itemKeyword
  | itemInclude
  | itemAccountKeyword
  | itemEnd
  | itemAlias
  | itemPrice
deriving DecidableEq, Repr

/-- The numeric (iota) value of each itemType constant; the source compares
`key[word] > itemKeyword` on these values. -/
def itemType.iota : itemType → Nat
  | .itemError => 0
  | .itemEOF => 1
  | .itemString => 2
  | .itemNote => 3
  | .itemJournal => 4
  | .itemJournalItem => 5
  | .itemDate => 6
  | .itemSpace => 7
  | .itemEOL => 8
  | .itemText => 9
  | .itemEqual => 10
  | .itemAsterisk => 11
  | .itemExclamation => 12
  | .itemSemicolon => 13
  | .itemCommodity => 14
  | .itemIdentifier => 15
  | .itemLeftParen => 16
  | .itemRightParen => 17
  | .itemNeg => 18
  | .itemQuantity => 19
  | .itemTilde => 20
  | .itemPeriodExpr => 21
  | .itemDot => 22
  | .itemStatus => 23
  | .itemAccountName => 24
  | .itemAccount => 25
  | .itemBeginAutomatedXact => 26
  | .itemBeginPeriodicXact => 27
  | .itemBeginXact => 28
  | .itemKeyword => 29
  | .itemInclude => 30
  | .itemAccountKeyword => 31
  | .itemEnd => 32
  | .itemAlias => 33
  | .itemPrice => 34

/-- The global keyword map `key` of the source; a missing key yields the Go
zero value, which is itemError (iota 0). -/
def key (w : List Char) : itemType :=
  if w = "include".data then .itemInclude
  else if w = "account".data then .itemAccountKeyword
  else if w = "end".data then .itemEnd
  else if w = "alias".data then .itemAlias
  else if w = "P".data then .itemPrice
  else .itemError

/-- item represents a token or text string returned from the scanner.
`val` is the consumed substring for ordinary tokens and the message text for
error tokens. -/
structure item where
  typ : itemType
  pos : Nat
  val : List Char
deriving DecidableEq, Repr

/-- lexer holds the state of the scanner (see the header comment for the
fields that are not embedded). -/
structure lexer where
  input : List Char
  pos : Nat
  start : Nat
  items : List item
deriving DecidableEq, Repr

/-- input[start:pos]-style slicing on rune lists. -/
def slice (inp : List Char) (a b : Nat) : List Char :=
  (inp.drop a).take (b - a)

/-- isSpace reports whether r is a space character. -/
def isSpace (c : Char) : Bool :=
  c = ' ' || c = '\t'

/-- isEndOfLine reports whether r is an end-of-line character. -/
def isEndOfLine (c : Char) : Bool :=
  c = '\r' || c = '\n'

/-- unicode.IsDigit, restricted to ASCII in this embedding. -/
def isDigit (c : Char) : Bool :=
  c.isDigit

/-- unicode.IsLetter, restricted to ASCII in this embedding. -/
def isLetter (c : Char) : Bool :=
  c.isAlpha

/-- isAlphaNumeric reports whether r is an alphabetic, digit, or underscore. -/
def isAlphaNumeric (c : Char) : Bool :=
  c = '_' || isLetter c || isDigit c

/-- next returns the next rune in the input (`none` = eof) and the advanced
cursor. -/
def next (l : lexer) : Option Char × lexer :=
  match l.input[l.pos]? with
  | none => (none, l)
  | some c => (some c, { l with pos := l.pos + 1 })

/-- peek returns but does not consume the next rune in the input. -/
def peek (l : lexer) : Option Char :=
  l.input[l.pos]?

/-- current returns input[start:pos], the pending lexeme. -/
def current (l : lexer) : List Char :=
  slice l.input l.start l.pos

/-- emit passes an item back to the client and resets the lexeme start. -/
def emit (t : itemType) (l : lexer) : lexer :=
  { l with items := l.items ++ [⟨t, l.start, current l⟩], start := l.pos }

/-- ignore skips over the pending input before this point. It is defined in
the source but never called by any state function. -/
def ignore (l : lexer) : lexer :=
  { l with start := l.pos }

/-- errorf emits an error token (whose val is the message) and, at every
call site, the enclosing state function then returns the nil state. -/
def errorf (msg : String) (l : lexer) : lexer :=
  { l with items := l.items ++ [⟨.itemError, l.start, msg.data⟩] }

/-- The ASCII single-quote character, used when rendering runes. -/
def squote : Char := Char.ofNat 39

/-- Rendering of a rune by the fmt verb %#U used in the error messages:
U+ followed by at least four upper-case hex digits, then the quoted rune
when it is printable (approximated here by printable ASCII). The eof
sentinel rune(-1) renders as U+FFFFFFFFFFFFFFFF, as recorded by the
repository's own test strings. -/
def goFormatRune : Option Char → String
  | none => "U+FFFFFFFFFFFFFFFF"
  | some c =>
    let ds := (Nat.toDigits 16 c.toNat).map Char.toUpper
    let ds := List.replicate (4 - ds.length) '0' ++ ds
    let base := "U+" ++ String.mk ds
    if 0x20 ≤ c.toNat ∧ c.toNat ≤ 0x7E then
      base ++ String.mk [' ', squote, c, squote]
    else base

/-- Models the source loop pattern `for p(l.peek()) { l.next() }` (and the
absorb loops written with `l.next()` followed by a final `l.backup()`):
the cursor advances past the maximal run of runes satisfying p; the eof
sentinel never satisfies p. -/
def scanRun (p : Char → Bool) (l : lexer) : lexer :=
  { l with pos := l.pos + ((l.input.drop l.pos).takeWhile p).length }

/-- scanSpaces consumes a run of space characters and emits it as one
itemSpace when it is non-empty, reporting whether it emitted. -/
def scanSpaces (l : lexer) : Bool × lexer :=
  if current (scanRun isSpace l) = [] then (false, scanRun isSpace l)
  else (true, emit .itemSpace (scanRun isSpace l))

/-- scanStringToEOL consumes (by peeking) up to the first end-of-line rune
or eof and emits the pending text as itemString when non-empty. -/
def scanStringToEOL (l : lexer) : Bool × lexer :=
  if current (scanRun (fun c => !(isEndOfLine c)) l) = [] then
    (false, scanRun (fun c => !(isEndOfLine c)) l)
  else (true, emit .itemString (scanRun (fun c => !(isEndOfLine c)) l))

/-- scanStringUntil consumes up to the first end-of-line rune, eof, or the
given rune (left unconsumed) and emits the pending text as itemString when
non-empty. -/
def scanStringUntil (until_ : Char) (l : lexer) : Bool × lexer :=
  if current (scanRun (fun c => !(isEndOfLine c) && !(c = until_)) l) = [] then
    (false, scanRun (fun c => !(isEndOfLine c) && !(c = until_)) l)
  else (true, emit .itemString (scanRun (fun c => !(isEndOfLine c) && !(c = until_)) l))

/-- scanNote consumes every rune up to (not including, thanks to the
backup) the first end-of-line rune or eof, and emits the pending text as
itemNote when non-empty. -/
def scanNote (l : lexer) : lexer :=
  if current (scanRun (fun c => !(isEndOfLine c)) l) = [] then
    scanRun (fun c => !(isEndOfLine c)) l
  else emit .itemNote (scanRun (fun c => !(isEndOfLine c)) l)

/-- Emit the pending lexeme as itemString when it is non-empty (the shared
tail of every branch of the source's scanStringNote loop). -/
def flushString (l : lexer) : lexer :=
  if current l = [] then l else emit .itemString l

/-- The semicolon branch of scanStringNote, entered with the cursor backed
up to the semicolon: emit the pending text as itemString when non-empty,
re-consume the semicolon ("skip that ';' again"), and scan the note. -/
def scanStringNoteSemi (l : lexer) : lexer :=
  scanNote (next (flushString l)).2

/-- scanStringNote consumes runes up to the first top-level semicolon,
end-of-line rune, or eof. At a semicolon: back up, emit the pending text as
itemString when non-empty, re-consume the semicolon, and scan the note. At
an end-of-line rune: the rune has been consumed by `next` and the source
does not back up, so it is part of the pending text, emitted as itemString
when non-empty. At eof: emit the pending text as itemString when
non-empty. -/
def scanStringNote (l₀ : lexer) : lexer :=
  match next (scanRun (fun c => !(c = ';') && !(isEndOfLine c)) l₀) with
  | (some ';', _) => scanStringNoteSemi (scanRun (fun c => !(c = ';') && !(isEndOfLine c)) l₀)
  | (some _, l₁) => flushString l₁
  | (none, l₁) => flushString l₁

/-- atTerminator reports whether the next rune is a space or end-of-line
rune; the eof sentinel is not a terminator. -/
def atTerminator (l : lexer) : Bool :=
  match peek l with
  | some r => isSpace r || isEndOfLine r
  | none => false

/-- Length of the account-name run for scanAccountName: runes up to
end-of-line or a field separator (a tab, or a space followed by a space or
tab). -/
def accountNameLen : List Char → Nat
  | [] => 0
  | c :: rest =>
    if isEndOfLine c then 0
    else if c = '\t' then 0
    else if c = ' ' && (rest.head? = some ' ' || rest.head? = some '\t') then 0
    else 1 + accountNameLen rest

/-- Modelled from the spec: the source's lexPostings calls
`l.scanAccountName()`, whose definition is not under src/. Per spec section
4.6 it consumes characters until end-of-line or until a field separator
(two consecutive spaces, a tab, or a space-then-tab pair) and emits an
AccountName token. -/
def scanAccountName (l : lexer) : lexer :=
  emit .itemAccountName
    { l with pos := l.pos + accountNameLen (l.input.drop l.pos) }

/-- The named states of the scanner state machine; `postings` carries the
local expectIndent flag of the source's lexPostings loop. -/
inductive scanState where
  | journal
  | identifier
  | periodicXact
  | automatedXact
  | plainXactDate
  | plainXactRest
  | postings (expectIndent : Bool)
  | postingAmount
deriving DecidableEq, Repr

/-- lexJournal scans the Ledger file for top-level Ledger constructs.
Note: in the eof case the source emits itemEOF and then returns lexJournal
(not nil), so the run loop re-enters this state. -/
def lexJournal (l₀ : lexer) : Option scanState × lexer :=
  match next l₀ with
  | (none, l) => (some .journal, emit .itemEOF l)
  | (some r, l) =>
    if isSpace r then
      (some .journal, emit .itemSpace (scanRun isSpace l))
    else if r = '~' then (some .periodicXact, emit .itemTilde l)
    else if r = '=' then (some .automatedXact, emit .itemEqual l)
    else if isDigit r then (some .plainXactDate, l)
    else if isAlphaNumeric r then (some .identifier, l₀)
    else if isEndOfLine r then (some .journal, emit .itemEOL l)
    else
      (none, errorf ("unrecognized character in directive: " ++
        goFormatRune (some r)) l)

/-- The message of the missing-filename error of lexIdentifier, with the
single quotes of the source string written via `squote`. -/
def missingFilenameMsg : String :=
  "missing filename after " ++ String.mk [squote] ++ "include" ++ String.mk [squote]

/-- The body of lexIdentifier after the absorb loop: `l` is the cursor
backed up before the stopping rune, so `current l` is the bareword and
`peek l` the stopping rune. Check the terminator, then dispatch on the
word: "include" and "end" specially, then the keyword map, then a generic
identifier. -/
def lexIdentifierWord (l : lexer) : Option scanState × lexer :=
  if !(atTerminator l) then
    (none, errorf ("bad character " ++ goFormatRune (peek l)) l)
  else if current l = "include".data then
    match scanStringToEOL (scanSpaces (emit .itemInclude l)).2 with
    | (false, l) => (none, errorf missingFilenameMsg l)
    | (true, l) => (some .journal, l)
  else if current l = "end".data then
    (some .identifier, (scanSpaces (emit .itemEnd l)).2)
  else if itemType.itemKeyword.iota < (key (current l)).iota then
    (some .journal, emit (key (current l)) l)
  else
    (some .journal, emit .itemIdentifier l)

/-- lexIdentifier scans an alphanumeric bareword: absorb the maximal run of
alphanumeric runes, back up before the stopping rune, then dispatch. -/
def lexIdentifier (l₀ : lexer) : Option scanState × lexer :=
  lexIdentifierWord (scanRun isAlphaNumeric l₀)

/-- lexPeriodicXact: consume leading spaces, run the shared text+note scan,
then move to the postings block. -/
def lexPeriodicXact (l : lexer) : Option scanState × lexer :=
  (some (.postings false), scanStringNote (scanSpaces l).2)

/-- lexAutomatedXact: same body as lexPeriodicXact in the source. -/
def lexAutomatedXact (l : lexer) : Option scanState × lexer :=
  (some (.postings false), scanStringNote (scanSpaces l).2)

/-- lexPlainXactDate refines date parsing at the lex level: a peeked digit
or separator is consumed and the state re-entered; a space ends the date
(emit itemDate, consume the space run, move to the header rest); eof,
end-of-line, or any other rune is a fatal error. -/
def lexPlainXactDate (l : lexer) : Option scanState × lexer :=
  match peek l with
  | some r =>
    if isDigit r || r = '.' || r = '-' || r = '/' then
      (some .plainXactDate, (next l).2)
    else if isSpace r then
      (some .plainXactRest, (scanSpaces (emit .itemDate l)).2)
    else if isEndOfLine r then
      (none, errorf "unexpected end-of-line" l)
    else
      (none, errorf ("invalid character in transaction date specification: " ++
        goFormatRune (some r)) l)
  | none => (none, errorf "unexpected end-of-file" l)

/-- lexPlainXactRest scans the rest of a plain transaction header line. -/
def lexPlainXactRest (l₀ : lexer) : Option scanState × lexer :=
  match next l₀ with
  | (some '=', l) => (some .plainXactDate, (scanSpaces (emit .itemEqual l)).2)
  | (some '*', l) => (some .plainXactRest, (scanSpaces (emit .itemAsterisk l)).2)
  | (some '!', l) => (some .plainXactRest, (scanSpaces (emit .itemExclamation l)).2)
  | (some '(', l) => (some .plainXactRest, (scanStringUntil ')' (emit .itemLeftParen l)).2)
  | (some ')', l) => (some .plainXactRest, emit .itemRightParen l)
  | _ => (some (.postings false), scanStringNote l₀)

/-- One iteration of the source's lexPostings loop. End-of-line: emit
itemEOL and loop with expectIndent set. Under expectIndent: a space run is
consumed (as itemSpace) and the state re-entered fresh; any other rune
(or eof) is pushed back and control returns to lexJournal. Otherwise
asterisk/exclamation tokens, account names, and a fall-through case that
clears expectIndent and loops; at eof with expectIndent clear no case
matches and the loop spins without consuming (the source has no eof case
here). -/
def lexPostings (expectIndent : Bool) (l₀ : lexer) : Option scanState × lexer :=
  match next l₀ with
  | (some r, l) =>
    if isEndOfLine r then (some (.postings true), emit .itemEOL l)
    else if expectIndent then
      if isSpace r then (some (.postings false), (scanSpaces l).2)
      else (some .journal, l₀)
    else if r = '*' then (some (.postings false), (scanSpaces (emit .itemAsterisk l)).2)
    else if r = '!' then (some (.postings false), (scanSpaces (emit .itemExclamation l)).2)
    else if isLetter r then (some .postingAmount, scanAccountName l)
    else (some (.postings false), l)
  | (none, l) =>
    if expectIndent then (some .journal, l₀)
    else (some (.postings false), l)

/-- lexPostingAmount is an intentional stub in the source: it returns to
lexPostings without consuming input. -/
def lexPostingAmount (l : lexer) : Option scanState × lexer :=
  (some (.postings false), l)

/-- Dispatch one state function, as the source's run loop does. -/
def step : scanState → lexer → Option scanState × lexer
  | .journal, l => lexJournal l
  | .identifier, l => lexIdentifier l
  | .periodicXact, l => lexPeriodicXact l
  | .automatedXact, l => lexAutomatedXact l
  | .plainXactDate, l => lexPlainXactDate l
  | .plainXactRest, l => lexPlainXactRest l
  | .postings b, l => lexPostings b l
  | .postingAmount, l => lexPostingAmount l

/-- lex creates a new scanner for the input string. -/
def lex (input : List Char) : lexer :=
  { input := input, pos := 0, start := 0, items := [] }

/-- The fuel-indexed run loop: apply state functions until the nil state or
until the fuel is exhausted. -/
def run : Nat → Option scanState → lexer → Option scanState × lexer
  | 0, s, l => (s, l)
  | _ + 1, none, l => (none, l)
  | n + 1, some st, l =>
    let r := step st l
    run n r.1 r.2

/-- Run the scanner from the initial state (lexJournal) for the given
number of steps. -/
def runLex (fuel : Nat) (input : List Char) : Option scanState × lexer :=
  run fuel (some .journal) (lex input)

/-! Specification-side definitions and the invariant machinery. -/

/-- The keyword table read as a case-sensitive partial map, for comparison
with the source's `key` (whose missing-key result is the Go zero value). -/
def keywordLookup (w : List Char) : Option itemType :=
  if w = "include".data then some .itemInclude
  else if w = "account".data then some .itemAccountKeyword
  else if w = "end".data then some .itemEnd
  else if w = "alias".data then some .itemAlias
  else if w = "P".data then some .itemPrice
  else none

/-- The keyword-recognition function exactly as the spec words it: a static
lookup from the lowercase bareword text to a keyword kind, any bareword not
in the table being a generic Identifier. Used to refute that reading. -/
def keywordKindSpec (w : List Char) : itemType :=
  (keywordLookup (w.map Char.toLower)).getD .itemIdentifier

/-- Cursor well-formedness: the lexeme start never passes the cursor and
the cursor never passes the end of the input. -/
def Wf (l : lexer) : Prop :=
  l.start ≤ l.pos ∧ l.pos ≤ l.input.length

/-- `TextChain inp a its b` says the items `its` carry exactly the
consecutive slices of `inp` from position `a` to position `b`: each item's
`pos` is where the previous one ended and its `val` is the literal slice of
the input there. -/
def TextChain (inp : List Char) : Nat → List item → Nat → Prop
  | a, [], b => b = a
  | a, it :: rest, b =>
    ∃ e, it.pos = a ∧ a ≤ e ∧ e ≤ inp.length ∧ it.val = slice inp a e ∧
      TextChain inp e rest b

/-- A scanning operation that only appends textual items: the input is
unchanged, well-formedness is preserved, and the appended items chain the
slices from the old lexeme start to the new one. -/
def Ext (l l' : lexer) : Prop :=
  l'.input = l.input ∧ (Wf l → Wf l') ∧
  ∃ its, l'.items = l.items ++ its ∧
    (Wf l → TextChain l.input l.start its l'.start)

/-- The run invariant: either every emitted item is textual and the items
chain the input from 0 to the lexeme start, or the items are such a chain
followed by a single error item (at the lexeme start) and the machine has
halted. -/
def Inv (inp : List Char) (s : Option scanState) (l : lexer) : Prop :=
  l.input = inp ∧ Wf l ∧
  (TextChain inp 0 l.items l.start ∨
    ∃ pre msg, l.items = pre ++ [⟨.itemError, l.start, msg⟩] ∧
      TextChain inp 0 pre l.start ∧ s = none)

/-! List and slice lemmas. -/

theorem tw_len_le (p : Char → Bool) (xs : List Char) :
    (xs.takeWhile p).length ≤ xs.length := by
  induction xs with
  | nil => simp
  | cons a xs ih =>
    by_cases h : p a = true <;> simp [List.takeWhile_cons, h] <;> omega

theorem tw_all (p : Char → Bool) (xs : List Char)
    (h : ∀ a ∈ xs, p a = true) : xs.takeWhile p = xs := by
  induction xs with
  | nil => simp
  | cons a xs ih =>
    have ha := h a (by simp)
    have ih' := ih fun b hb => h b (by simp [hb])
    simp [List.takeWhile_cons, ha, ih']

theorem tw_append_all (p : Char → Bool) (xs ys : List Char)
    (h : ∀ a ∈ xs, p a = true) :
    (xs ++ ys).takeWhile p = xs ++ ys.takeWhile p := by
  induction xs with
  | nil => simp
  | cons a xs ih =>
    have ha := h a (by simp)
    have ih' := ih fun b hb => h b (by simp [hb])
    simp [List.takeWhile_cons, ha, ih']

theorem tw_cons_false (p : Char → Bool) (a : Char) (xs : List Char)
    (h : p a = false) : (a :: xs).takeWhile p = [] := by
  simp [List.takeWhile_cons, h]

theorem take_tw (p : Char → Bool) (xs : List Char) :
    xs.take (xs.takeWhile p).length = xs.takeWhile p := by
  induction xs with
  | nil => simp
  | cons a xs ih =>
    by_cases h : p a = true <;> simp [List.takeWhile_cons, h, ih]

theorem drop_tw (p : Char → Bool) (xs : List Char) :
    xs.drop (xs.takeWhile p).length = xs.dropWhile p := by
  induction xs with
  | nil => simp
  | cons a xs ih =>
    by_cases h : p a = true <;> simp [List.takeWhile_cons, List.dropWhile_cons, h, ih]

theorem getElem?_eq_head?_drop {α : Type} (xs : List α) (i : Nat) :
    xs[i]? = (xs.drop i).head? := by
  induction xs generalizing i with
  | nil => simp
  | cons a xs ih =>
    cases i with
    | zero => simp
    | succ j => simpa using ih j

theorem getElem?_of_drop_cons {α : Type} {xs : List α} {i : Nat} {c : α}
    {r : List α} (h : xs.drop i = c :: r) : xs[i]? = some c := by
  rw [getElem?_eq_head?_drop, h]; rfl

theorem drop_cons_of_getElem? {α : Type} {xs : List α} {i : Nat} {c : α}
    (h : xs[i]? = some c) : xs.drop i = c :: xs.drop (i + 1) := by
  induction xs generalizing i with
  | nil => simp at h
  | cons a xs ih =>
    cases i with
    | zero => simp_all
    | succ j => simpa using ih (by simpa using h)

theorem lt_length_of_getElem? {α : Type} {xs : List α} {i : Nat} {c : α}
    (h : xs[i]? = some c) : i < xs.length := by
  by_contra hc
  rw [List.getElem?_eq_none (by omega)] at h
  exact Option.noConfusion h

theorem slice_self (inp : List Char) (a : Nat) : slice inp a a = [] := by
  simp [slice]

theorem slice_zero (inp : List Char) (b : Nat) : slice inp 0 b = inp.take b := by
  simp [slice]

theorem slice_len (inp : List Char) {a b : Nat} (h1 : a ≤ b)
    (h2 : b ≤ inp.length) : (slice inp a b).length = b - a := by
  simp [slice]
  omega

theorem slice_append (inp : List Char) {a b c : Nat} (h1 : a ≤ b)
    (h2 : b ≤ c) : slice inp a b ++ slice inp b c = slice inp a c := by
  unfold slice
  have hd : inp.drop b = (inp.drop a).drop (b - a) := by
    rw [List.drop_drop]
    congr 1
    omega
  rw [hd, ← List.take_add]
  congr 1
  omega

/-! TextChain lemmas. -/

theorem tc_nil (inp : List Char) (a : Nat) : TextChain inp a [] a := by
  simp [TextChain]

theorem tc_single (inp : List Char) {a e : Nat} (t : itemType)
    (h1 : a ≤ e) (h2 : e ≤ inp.length) :
    TextChain inp a [⟨t, a, slice inp a e⟩] e :=
  ⟨e, rfl, h1, h2, rfl, by simp [TextChain]⟩

theorem tc_append {inp : List Char} {a b c : Nat} {xs ys : List item}
    (h1 : TextChain inp a xs b) (h2 : TextChain inp b ys c) :
    TextChain inp a (xs ++ ys) c := by
  induction xs generalizing a with
  | nil => simpa [TextChain, h1.symm] using h2
  | cons it rest ih =>
    obtain ⟨e, hp, hae, hel, hv, hrest⟩ := h1
    exact ⟨e, hp, hae, hel, hv, ih hrest⟩

theorem tc_le {inp : List Char} {a b : Nat} {xs : List item}
    (h : TextChain inp a xs b) : a ≤ b := by
  induction xs generalizing a with
  | nil => simp [TextChain] at h; omega
  | cons it rest ih =>
    obtain ⟨e, _, hae, _, _, hrest⟩ := h
    exact le_trans hae (ih hrest)

theorem tc_pos_ge {inp : List Char} {a b : Nat} {xs : List item}
    (h : TextChain inp a xs b) : ∀ it ∈ xs, a ≤ it.pos := by
  induction xs generalizing a with
  | nil => simp
  | cons it rest ih =>
    obtain ⟨e, hp, hae, _, _, hrest⟩ := h
    intro x hx
    rcases List.mem_cons.mp hx with rfl | hx
    · omega
    · have := ih hrest x hx
      omega

theorem tc_seg_end {inp : List Char} {a b : Nat} {it : item} {rest : List item}
    (h : TextChain inp a (it :: rest) b) :
    it.pos = a ∧ TextChain inp (a + it.val.length) rest b := by
  obtain ⟨e, hp, hae, hel, hv, hrest⟩ := h
  have hlen : it.val.length = e - a := by rw [hv]; exact slice_len inp hae hel
  constructor
  · exact hp
  · have : a + it.val.length = e := by omega
    rwa [this]

theorem tc_pairwise {inp : List Char} {a b : Nat} {xs : List item}
    (h : TextChain inp a xs b) :
    xs.Pairwise (fun x y => x.pos + x.val.length ≤ y.pos) := by
  induction xs generalizing a with
  | nil => simp
  | cons it rest ih =>
    have hseg := tc_seg_end h
    obtain ⟨hp, hrest⟩ := hseg
    refine List.Pairwise.cons ?_ (ih hrest)
    intro y hy
    have := tc_pos_ge hrest y hy
    omega

theorem tc_join {inp : List Char} {a b : Nat} {xs : List item}
    (h : TextChain inp a xs b) :
    (xs.map item.val).flatten = slice inp a b := by
  induction xs generalizing a with
  | nil =>
    simp [TextChain] at h
    simp [h, slice_self]
  | cons it rest ih =>
    obtain ⟨e, hp, hae, hel, hv, hrest⟩ := h
    have hb := tc_le hrest
    simp only [List.map_cons, List.flatten_cons]
    rw [hv, ih hrest, slice_append inp hae hb]

theorem tc_snoc {inp : List Char} {a b : Nat} {xs : List item} {t : item}
    (h : TextChain inp a (xs ++ [t]) b) : TextChain inp a xs t.pos := by
  induction xs generalizing a with
  | nil =>
    obtain ⟨e, hp, _, _, _, _⟩ := h
    simpa [TextChain] using hp
  | cons it rest ih =>
    obtain ⟨e, hp, hae, hel, hv, hrest⟩ := h
    exact ⟨e, hp, hae, hel, hv, ih hrest⟩

/-! Ext lemmas: each scanning helper only appends textual items. -/

theorem ext_refl (l : lexer) : Ext l l :=
  ⟨rfl, id, [], by simp, fun _ => tc_nil _ _⟩

theorem ext_trans {l l' l'' : lexer} (h1 : Ext l l') (h2 : Ext l' l'') :
    Ext l l'' := by
  obtain ⟨hi1, hw1, its1, hit1, hc1⟩ := h1
  obtain ⟨hi2, hw2, its2, hit2, hc2⟩ := h2
  refine ⟨hi2.trans hi1, fun w => hw2 (hw1 w), its1 ++ its2,
    by rw [hit2, hit1, List.append_assoc], ?_⟩
  intro w
  have c2 := hc2 (hw1 w)
  rw [hi1] at c2
  exact tc_append (hc1 w) c2

theorem ext_next {l : lexer} {r : Option Char} {l' : lexer}
    (h : next l = (r, l')) : Ext l l' := by
  unfold next at h
  cases hx : l.input[l.pos]? with
  | none =>
    rw [hx] at h
    cases h
    exact ext_refl l
  | some c =>
    rw [hx] at h
    cases h
    have hlt := lt_length_of_getElem? hx
    refine ⟨rfl, ?_, [], by simp, fun _ => tc_nil _ _⟩
    intro w
    obtain ⟨w1, w2⟩ := w
    exact ⟨by change l.start ≤ l.pos + 1; omega,
      by change l.pos + 1 ≤ l.input.length; omega⟩

theorem ext_next_snd (l : lexer) : Ext l (next l).2 :=
  ext_next rfl

theorem ext_scanRun (p : Char → Bool) (l : lexer) : Ext l (scanRun p l) := by
  refine ⟨rfl, ?_, [], by simp [scanRun], fun _ => tc_nil _ _⟩
  intro w
  obtain ⟨w1, w2⟩ := w
  have hk : ((l.input.drop l.pos).takeWhile p).length ≤ l.input.length - l.pos := by
    have h1 := tw_len_le p (l.input.drop l.pos)
    have h2 : (l.input.drop l.pos).length = l.input.length - l.pos :=
      List.length_drop l.pos l.input
    omega
  constructor
  · change l.start ≤ l.pos + ((l.input.drop l.pos).takeWhile p).length
    omega
  · change l.pos + ((l.input.drop l.pos).takeWhile p).length ≤ l.input.length
    omega

theorem ext_emit (t : itemType) (l : lexer) : Ext l (emit t l) := by
  refine ⟨rfl, ?_, [⟨t, l.start, current l⟩], by simp [emit], ?_⟩
  · intro w
    exact ⟨le_refl _, w.2⟩
  · intro w
    exact tc_single l.input t w.1 w.2

theorem ext_errorf (msg : String) (l : lexer) :
    (errorf msg l).items = l.items ++ [⟨.itemError, l.start, msg.data⟩] := by
  simp [errorf]

theorem ext_scanSpaces (l : lexer) : Ext l (scanSpaces l).2 := by
  unfold scanSpaces
  by_cases h : current (scanRun isSpace l) = []
  · rw [if_pos h]
    exact ext_scanRun isSpace l
  · rw [if_neg h]
    exact ext_trans (ext_scanRun isSpace l) (ext_emit _ _)

theorem ext_scanStringToEOL (l : lexer) : Ext l (scanStringToEOL l).2 := by
  unfold scanStringToEOL
  by_cases h : current (scanRun (fun c => !(isEndOfLine c)) l) = []
  · rw [if_pos h]
    exact ext_scanRun _ l
  · rw [if_neg h]
    exact ext_trans (ext_scanRun _ l) (ext_emit _ _)

theorem ext_scanStringUntil (u : Char) (l : lexer) :
    Ext l (scanStringUntil u l).2 := by
  unfold scanStringUntil
  by_cases h : current (scanRun (fun c => !(isEndOfLine c) && !(c = u)) l) = []
  · rw [if_pos h]
    exact ext_scanRun _ l
  · rw [if_neg h]
    exact ext_trans (ext_scanRun _ l) (ext_emit _ _)

theorem ext_scanNote (l : lexer) : Ext l (scanNote l) := by
  unfold scanNote
  by_cases h : current (scanRun (fun c => !(isEndOfLine c)) l) = []
  · rw [if_pos h]
    exact ext_scanRun _ l
  · rw [if_neg h]
    exact ext_trans (ext_scanRun _ l) (ext_emit _ _)

theorem ext_flushString (l : lexer) : Ext l (flushString l) := by
  unfold flushString
  by_cases h : current l = []
  · rw [if_pos h]
    exact ext_refl l
  · rw [if_neg h]
    exact ext_emit _ _

theorem ext_scanStringNoteSemi (l : lexer) : Ext l (scanStringNoteSemi l) :=
  ext_trans (ext_flushString l) (ext_trans (ext_next_snd _) (ext_scanNote _))

theorem ext_scanStringNote (l : lexer) : Ext l (scanStringNote l) := by
  unfold scanStringNote
  split
  · exact ext_trans (ext_scanRun _ l) (ext_scanStringNoteSemi _)
  next c l₁ hne heq =>
    exact ext_trans (ext_scanRun _ l) (ext_trans (ext_next heq) (ext_flushString _))
  next l₁ heq =>
    exact ext_trans (ext_scanRun _ l) (ext_trans (ext_next heq) (ext_flushString _))

theorem acct_len_le (xs : List Char) : accountNameLen xs ≤ xs.length := by
  induction xs with
  | nil => simp [accountNameLen]
  | cons c rest ih =>
    unfold accountNameLen
    split
    · omega
    · split
      · omega
      · split
        · omega
        · simp only [List.length_cons]
          omega

theorem ext_scanAccountName (l : lexer) : Ext l (scanAccountName l) := by
  unfold scanAccountName
  refine ext_trans ?_ (ext_emit _ _)
  refine ⟨rfl, ?_, [], by simp, fun _ => tc_nil _ _⟩
  intro w
  obtain ⟨w1, w2⟩ := w
  have hk : accountNameLen (l.input.drop l.pos) ≤ l.input.length - l.pos := by
    have h1 := acct_len_le (l.input.drop l.pos)
    have h2 : (l.input.drop l.pos).length = l.input.length - l.pos :=
      List.length_drop l.pos l.input
    omega
  constructor
  · change l.start ≤ l.pos + accountNameLen (l.input.drop l.pos)
    omega
  · change l.pos + accountNameLen (l.input.drop l.pos) ≤ l.input.length
    omega

/-! Invariant preservation. -/

theorem inv_some_chain {inp : List Char} {st : scanState} {l : lexer}
    (h : Inv inp (some st) l) : TextChain inp 0 l.items l.start := by
  rcases h.2.2 with hc | ⟨pre, msg, _, _, hnone⟩
  · exact hc
  · exact absurd hnone (by simp)

theorem inv_ext {inp : List Char} {st : scanState} {l l' : lexer}
    (h : Inv inp (some st) l) (he : Ext l l') (s' : Option scanState) :
    Inv inp s' l' := by
  have hchain := inv_some_chain h
  obtain ⟨hi, hw, _⟩ := h
  obtain ⟨hi', hw', its, hit, hc⟩ := he
  refine ⟨hi'.trans hi, hw' hw, Or.inl ?_⟩
  rw [hit]
  have hc' := hc hw
  rw [hi] at hc'
  exact tc_append hchain hc'

theorem inv_err {inp : List Char} {st : scanState} {l l' : lexer}
    (h : Inv inp (some st) l) (he : Ext l l') (msg : String) :
    Inv inp none (errorf msg l') := by
  have h' : Inv inp (some st) l' := inv_ext h he (some st)
  have hchain := inv_some_chain h'
  obtain ⟨hi, hw, _⟩ := h'
  exact ⟨hi, hw, Or.inr ⟨l'.items, msg.data, by simp [errorf], hchain, rfl⟩⟩

theorem step_inv {inp : List Char} {st : scanState} {l : lexer}
    (h : Inv inp (some st) l) :
    Inv inp (step st l).1 (step st l).2 := by
  cases st with
  | journal =>
    show Inv inp (lexJournal l).1 (lexJournal l).2
    unfold lexJournal
    split
    next l₁ hn =>
      exact inv_ext h (ext_trans (ext_next hn) (ext_emit _ _)) _
    next c l₁ hn =>
      split
      · exact inv_ext h
          (ext_trans (ext_next hn) (ext_trans (ext_scanRun _ _) (ext_emit _ _))) _
      · split
        · exact inv_ext h (ext_trans (ext_next hn) (ext_emit _ _)) _
        · split
          · exact inv_ext h (ext_trans (ext_next hn) (ext_emit _ _)) _
          · split
            · exact inv_ext h (ext_next hn) _
            · split
              · exact inv_ext h (ext_refl _) _
              · split
                · exact inv_ext h (ext_trans (ext_next hn) (ext_emit _ _)) _
                · exact inv_err h (ext_next hn) _
  | identifier =>
    show Inv inp (lexIdentifierWord (scanRun isAlphaNumeric l)).1
      (lexIdentifierWord (scanRun isAlphaNumeric l)).2
    have hx : Ext l (scanRun isAlphaNumeric l) := ext_scanRun _ _
    unfold lexIdentifierWord
    split
    · exact inv_err h hx _
    · split
      · split
        next l' heq =>
          have h3 := ext_scanStringToEOL
            (scanSpaces (emit .itemInclude (scanRun isAlphaNumeric l))).2
          rw [heq] at h3
          exact inv_err h
            (ext_trans hx (ext_trans (ext_emit _ _) (ext_trans (ext_scanSpaces _) h3))) _
        next l' heq =>
          have h3 := ext_scanStringToEOL
            (scanSpaces (emit .itemInclude (scanRun isAlphaNumeric l))).2
          rw [heq] at h3
          exact inv_ext h
            (ext_trans hx (ext_trans (ext_emit _ _) (ext_trans (ext_scanSpaces _) h3))) _
      · split
        · exact inv_ext h (ext_trans hx (ext_trans (ext_emit _ _) (ext_scanSpaces _))) _
        · split
          · exact inv_ext h (ext_trans hx (ext_emit _ _)) _
          · exact inv_ext h (ext_trans hx (ext_emit _ _)) _
  | periodicXact =>
    show Inv inp (lexPeriodicXact l).1 (lexPeriodicXact l).2
    exact inv_ext h (ext_trans (ext_scanSpaces _) (ext_scanStringNote _)) _
  | automatedXact =>
    show Inv inp (lexAutomatedXact l).1 (lexAutomatedXact l).2
    exact inv_ext h (ext_trans (ext_scanSpaces _) (ext_scanStringNote _)) _
  | plainXactDate =>
    show Inv inp (lexPlainXactDate l).1 (lexPlainXactDate l).2
    unfold lexPlainXactDate
    split
    next c hp =>
      split
      · exact inv_ext h (ext_next_snd _) _
      · split
        · exact inv_ext h (ext_trans (ext_emit _ _) (ext_scanSpaces _)) _
        · split
          · exact inv_err h (ext_refl _) _
          · exact inv_err h (ext_refl _) _
    next hp =>
      exact inv_err h (ext_refl _) _
  | plainXactRest =>
    show Inv inp (lexPlainXactRest l).1 (lexPlainXactRest l).2
    unfold lexPlainXactRest
    split
    next l₁ heq =>
      exact inv_ext h (ext_trans (ext_next heq) (ext_trans (ext_emit _ _) (ext_scanSpaces _))) _
    next l₁ heq =>
      exact inv_ext h (ext_trans (ext_next heq) (ext_trans (ext_emit _ _) (ext_scanSpaces _))) _
    next l₁ heq =>
      exact inv_ext h (ext_trans (ext_next heq) (ext_trans (ext_emit _ _) (ext_scanSpaces _))) _
    next l₁ heq =>
      exact inv_ext h
        (ext_trans (ext_next heq) (ext_trans (ext_emit _ _) (ext_scanStringUntil _ _))) _
    next l₁ heq =>
      exact inv_ext h (ext_trans (ext_next heq) (ext_emit _ _)) _
    next =>
      exact inv_ext h (ext_scanStringNote _) _
  | postings b =>
    show Inv inp (lexPostings b l).1 (lexPostings b l).2
    unfold lexPostings
    split
    next c l₁ hn =>
      split
      · exact inv_ext h (ext_trans (ext_next hn) (ext_emit _ _)) _
      · split
        · split
          · exact inv_ext h (ext_trans (ext_next hn) (ext_scanSpaces _)) _
          · exact inv_ext h (ext_refl _) _
        · split
          · exact inv_ext h
              (ext_trans (ext_next hn) (ext_trans (ext_emit _ _) (ext_scanSpaces _))) _
          · split
            · exact inv_ext h
                (ext_trans (ext_next hn) (ext_trans (ext_emit _ _) (ext_scanSpaces _))) _
            · split
              · exact inv_ext h (ext_trans (ext_next hn) (ext_scanAccountName _)) _
              · exact inv_ext h (ext_next hn) _
    next l₁ hn =>
      split
      · exact inv_ext h (ext_refl _) _
      · exact inv_ext h (ext_next hn) _
  | postingAmount =>
    show Inv inp (lexPostingAmount l).1 (lexPostingAmount l).2
    exact inv_ext h (ext_refl _) _

theorem run_inv {inp : List Char} (fuel : Nat) (s : Option scanState)
    (l : lexer) (h : Inv inp s l) :
    Inv inp (run fuel s l).1 (run fuel s l).2 := by
  induction fuel generalizing s l with
  | zero => exact h
  | succ n ih =>
    cases s with
    | none => exact h
    | some st => exact ih _ _ (step_inv h)

theorem init_inv (inp : List Char) : Inv inp (some .journal) (lex inp) :=
  ⟨rfl, ⟨le_refl 0, Nat.zero_le _⟩, Or.inl (tc_nil inp 0)⟩

theorem tc_pos_le_end {inp : List Char} {a b : Nat} {xs : List item}
    (h : TextChain inp a xs b) : ∀ it ∈ xs, it.pos ≤ b := by
  induction xs generalizing a with
  | nil => simp
  | cons it rest ih =>
    obtain ⟨hp, hrest⟩ := tc_seg_end h
    intro x hx
    rcases List.mem_cons.mp hx with rfl | hx
    · have := tc_le hrest
      omega
    · exact ih hrest x hx

/-! Run-loop algebra. -/

theorem run_none (n : Nat) (l : lexer) : run n none l = (none, l) := by
  cases n <;> rfl

theorem run_add (m n : Nat) (s : Option scanState) (l : lexer) :
    run (m + n) s l = run n (run m s l).1 (run m s l).2 := by
  induction m generalizing s l with
  | zero =>
    rw [Nat.zero_add]
    rfl
  | succ m ih =>
    rw [Nat.succ_add]
    cases s with
    | none => simp [run_none]
    | some st =>
      show run (m + n) (step st l).1 (step st l).2 =
        run n (run m (step st l).1 (step st l).2).1
          (run m (step st l).1 (step st l).2).2
      exact ih _ _

/-- In the postings state with expectIndent clear and the cursor at eof, no
case of the source's switch matches, so the loop spins forever without
consuming or emitting. -/
theorem postings_stuck_at_eof (n : Nat) (l : lexer)
    (h : l.input[l.pos]? = none) :
    run n (some (.postings false)) l = (some (.postings false), l) := by
  induction n with
  | zero => rfl
  | succ n ih =>
    show run n (lexPostings false l).1 (lexPostings false l).2 = _
    have hstep : lexPostings false l = (some (.postings false), l) := by
      unfold lexPostings next
      rw [h]
      rfl
    rw [hstep]
    exact ih

/-- On empty input, lexJournal emits itemEOF and returns to itself, so each
step appends one more itemEOF. -/
theorem journal_eof_loop (n : Nat) (its : List item) :
    run n (some .journal) ⟨[], 0, 0, its⟩ =
      (some .journal, ⟨[], 0, 0, its ++ List.replicate n ⟨.itemEOF, 0, []⟩⟩) := by
  induction n generalizing its with
  | zero => simp [run]
  | succ n ih =>
    show run n (lexJournal ⟨[], 0, 0, its⟩).1 (lexJournal ⟨[], 0, 0, its⟩).2 = _
    have hstep : lexJournal ⟨[], 0, 0, its⟩ =
        (some .journal, ⟨[], 0, 0, its ++ [⟨.itemEOF, 0, []⟩]⟩) := rfl
    rw [hstep, ih]
    simp [List.replicate_succ]

/-- When the lexeme start equals the cursor and the next rune is a space,
scanSpaces consumes exactly the maximal space run and emits it as one
itemSpace token. -/
theorem scanSpaces_at_space {l : lexer} {c : Char} (hst : l.start = l.pos)
    (hp : l.input[l.pos]? = some c) (hsp : isSpace c = true) :
    (scanSpaces l).2 = { l with
      pos := l.pos + ((l.input.drop l.pos).takeWhile isSpace).length,
      start := l.pos + ((l.input.drop l.pos).takeWhile isSpace).length,
      items := l.items ++
        [⟨.itemSpace, l.pos, (l.input.drop l.pos).takeWhile isSpace⟩] } := by
  have hd := drop_cons_of_getElem? hp
  have htw : (l.input.drop l.pos).takeWhile isSpace =
      c :: (l.input.drop (l.pos + 1)).takeWhile isSpace := by
    rw [hd]
    simp [List.takeWhile_cons, hsp]
  have hcur : current (scanRun isSpace l) =
      (l.input.drop l.pos).takeWhile isSpace := by
    show slice l.input l.start
      (l.pos + ((l.input.drop l.pos).takeWhile isSpace).length) = _
    rw [hst]
    unfold slice
    rw [Nat.add_sub_cancel_left]
    exact take_tw isSpace (l.input.drop l.pos)
  have hne : current (scanRun isSpace l) ≠ [] := by
    rw [hcur, htw]
    simp
  unfold scanSpaces
  rw [if_neg hne]
  show emit .itemSpace (scanRun isSpace l) = _
  unfold emit
  rw [hcur]
  simp [scanRun, hst]

/-! Claim theorems. -/

/-- C1 (code bug): the claim says the token stream ends with exactly one
terminal token after which the producer emits nothing further and
terminates. On the empty input the scanner instead stays in the journal
state after emitting EndOfInput and emits one EndOfInput token per step
forever: with any fuel n the machine has emitted n EndOfInput tokens and
has still not halted, because the source returns lexJournal instead of nil
after emitting itemEOF. -/
theorem claim_C1_eof_loop (n : Nat) :
    runLex n [] = (some scanState.journal,
      { input := [], pos := 0, start := 0,
        items := List.replicate n ⟨.itemEOF, 0, []⟩ }) := by
  have h := journal_eof_loop n []
  simpa [runLex, lex] using h

/-- C2 (confirmed): token start positions are monotonically non-decreasing
across the emitted stream; the tokens before a terminal token are
non-overlapping consecutive slices, and concatenating their texts
reproduces exactly the prefix of the source up to the terminal token's
start position (the position at which consumption of complete tokens
ended). -/
theorem claim_C2_stream_partition (inp : List Char) (fuel : Nat) :
    ((runLex fuel inp).2.items).Pairwise (fun x y => x.pos ≤ y.pos) ∧
    ∀ (pre : List item) (term : item),
      (runLex fuel inp).2.items = pre ++ [term] →
      (term.typ = .itemError ∨ term.typ = .itemEOF) →
      pre.Pairwise (fun x y => x.pos + x.val.length ≤ y.pos) ∧
      (pre.map item.val).flatten = inp.take term.pos := by
  have hinv : Inv inp (runLex fuel inp).1 (runLex fuel inp).2 :=
    run_inv fuel (some .journal) (lex inp) (init_inv inp)
  rcases hinv.2.2 with hc | ⟨pre', msg, hitems, hc, _⟩
  · constructor
    · exact (tc_pairwise hc).imp (fun hxy => by omega)
    · intro pre term hdec hterm
      rw [hdec] at hc
      have hpre := tc_snoc hc
      exact ⟨tc_pairwise hpre, by rw [tc_join hpre, slice_zero]⟩
  · constructor
    · rw [hitems]
      apply List.pairwise_append.mpr
      refine ⟨(tc_pairwise hc).imp (fun hxy => by omega),
        List.pairwise_singleton _ _, ?_⟩
      intro x hx y hy
      rcases List.mem_singleton.mp hy with rfl
      exact tc_pos_le_end hc x hx
    · intro pre term hdec hterm
      rw [hitems] at hdec
      obtain ⟨rfl, hterm'⟩ := List.append_inj' hdec rfl
      have hterm2 : (⟨.itemError, (runLex fuel inp).2.start, msg⟩ : item) = term := by
        simpa using hterm'
      constructor
      · exact tc_pairwise hc
      · rw [tc_join hc, slice_zero, ← hterm2]

/-- C2 witness: on the empty input with one step of fuel the stream is a
single EndOfInput terminal; the tokens before it are none and their
concatenation is the empty prefix. -/
theorem claim_C2_witness :
    (([] : List item).Pairwise (fun x y => x.pos + x.val.length ≤ y.pos)) ∧
    (([] : List item).map item.val).flatten =
      ([] : List Char).take (item.pos ⟨.itemEOF, 0, []⟩) :=
  (claim_C2_stream_partition [] 1).2 [] ⟨.itemEOF, 0, []⟩ (by decide)
    (Or.inr rfl)

/-- C3 (code bug): the claim says every loop iteration consumes at least
one rune and the scan runs to completion even on malformed input. On the
input "~ " (the repository's own "periodic xact truncated" test, which
expects Tilde, Whitespace, EndOfInput) the scanner reaches the postings
state at end-of-input and spins forever without consuming a rune or
emitting any further token: with fuel 2+n for any n the state is still the
postings state and no terminal token has been emitted. -/
theorem claim_C3_postings_stuck (n : Nat) :
    runLex (2 + n) "~ ".data = (some (scanState.postings false),
      { input := "~ ".data, pos := 2, start := 2,
        items := [⟨.itemTilde, 0, ['~']⟩, ⟨.itemSpace, 1, [' ']⟩] }) := by
  rw [runLex, run_add]
  have h2 : run 2 (some scanState.journal) (lex "~ ".data) =
      (some (scanState.postings false),
        { input := "~ ".data, pos := 2, start := 2,
          items := [⟨.itemTilde, 0, ['~']⟩, ⟨.itemSpace, 1, [' ']⟩] }) := by
    decide
  rw [h2]
  exact postings_stuck_at_eof n _ (by decide)

/-- C6 (code bug): the claim (and the repository's own "account" test)
expects "account Account" to scan to Keyword(account), Whitespace,
AccountName(Account), EndOfInput. The scanner instead halts with
Error("bad character U+FFFFFFFFFFFFFFFF") after the Whitespace, because
atTerminator rejects end-of-input as a bareword terminator, and it never
emits an AccountName for a top-level bareword. -/
theorem claim_C6_account_eof_error (n : Nat) :
    runLex (5 + n) "account Account".data = (none,
      { input := "account Account".data, pos := 15, start := 8,
        items := [⟨.itemAccountKeyword, 0, "account".data⟩,
          ⟨.itemSpace, 7, [' ']⟩,
          ⟨.itemError, 8, "bad character U+FFFFFFFFFFFFFFFF".data⟩] }) := by
  rw [runLex, run_add]
  have h5 : run 5 (some scanState.journal) (lex "account Account".data) =
      (none,
        { input := "account Account".data, pos := 15, start := 8,
          items := [⟨.itemAccountKeyword, 0, "account".data⟩,
            ⟨.itemSpace, 7, [' ']⟩,
            ⟨.itemError, 8, "bad character U+FFFFFFFFFFFFFFFF".data⟩] }) := by
    decide
  rw [h5]
  exact run_none n _

/-- C7 (code bug): the claim (and the repository's own "simple transaction"
test) says the shared text+note scan splits the rest of the line, the
String token carrying the line text. In the source's scanStringNote the
end-of-line branch does not back up, so the newline rune is folded into
the String token and no EndOfLine token is emitted for it: on "~ x\n" the
scanner emits String("x\n") (instead of String("x")) and then spins at
end-of-input. -/
theorem claim_C7_string_swallows_newline (n : Nat) :
    runLex (2 + n) "~ x\n".data = (some (scanState.postings false),
      { input := "~ x\n".data, pos := 4, start := 4,
        items := [⟨.itemTilde, 0, ['~']⟩, ⟨.itemSpace, 1, [' ']⟩,
          ⟨.itemString, 2, ['x', '\n']⟩] }) := by
  rw [runLex, run_add]
  have h2 : run 2 (some scanState.journal) (lex "~ x\n".data) =
      (some (scanState.postings false),
        { input := "~ x\n".data, pos := 4, start := 4,
          items := [⟨.itemTilde, 0, ['~']⟩, ⟨.itemSpace, 1, [' ']⟩,
            ⟨.itemString, 2, ['x', '\n']⟩] }) := by
    decide
  rw [h2]
  exact postings_stuck_at_eof n _ (by decide)

/-- C4 (confirmed): in the TransactionDate state, reaching whitespace emits
a Date token for everything accumulated, consumes the space run as one
Whitespace token, and moves to TransactionHeaderRest; reaching end-of-input
emits Error("unexpected end-of-file"); reaching end-of-line emits
Error("unexpected end-of-line"); any other (non-digit, non-separator)
character emits Error("invalid character in transaction date
specification: <rune>"); and in each error case the next state is nil. -/
theorem claim_C4_date_boundary :
    (∀ (l : lexer) (c : Char), l.input[l.pos]? = some c → isSpace c = true →
      (lexPlainXactDate l).1 = some scanState.plainXactRest ∧
      (lexPlainXactDate l).2.items = l.items ++
        [⟨.itemDate, l.start, slice l.input l.start l.pos⟩,
         ⟨.itemSpace, l.pos, (l.input.drop l.pos).takeWhile isSpace⟩]) ∧
    (∀ (l : lexer), l.input[l.pos]? = none →
      (lexPlainXactDate l).1 = none ∧
      (lexPlainXactDate l).2.items = l.items ++
        [⟨.itemError, l.start, "unexpected end-of-file".data⟩]) ∧
    (∀ (l : lexer) (c : Char), l.input[l.pos]? = some c →
      isEndOfLine c = true →
      (lexPlainXactDate l).1 = none ∧
      (lexPlainXactDate l).2.items = l.items ++
        [⟨.itemError, l.start, "unexpected end-of-line".data⟩]) ∧
    (∀ (l : lexer) (c : Char), l.input[l.pos]? = some c →
      isDigit c = false → c ≠ '.' → c ≠ '-' → c ≠ '/' →
      isSpace c = false → isEndOfLine c = false →
      (lexPlainXactDate l).1 = none ∧
      (lexPlainXactDate l).2.items = l.items ++
        [⟨.itemError, l.start,
          ("invalid character in transaction date specification: " ++
            goFormatRune (some c)).data⟩]) := by
  refine ⟨?_, ?_, ?_, ?_⟩
  · intro l c hp hsp
    have hpk : peek l = some c := hp
    have hsp' : c = ' ' ∨ c = '\t' := by
      simpa [isSpace] using hsp
    have hdig : ¬((isDigit c || c = '.' || c = '-' || c = '/') = true) := by
      rcases hsp' with rfl | rfl <;> decide
    have hstep : lexPlainXactDate l =
        (some .plainXactRest, (scanSpaces (emit .itemDate l)).2) := by
      simp only [lexPlainXactDate, hpk]
      rw [if_neg hdig, if_pos hsp]
    rw [hstep]
    refine ⟨rfl, ?_⟩
    have hsp2 := scanSpaces_at_space (l := emit .itemDate l) rfl hp hsp
    rw [hsp2]
    simp [emit, current]
  · intro l hp
    have hpk : peek l = none := hp
    have hstep : lexPlainXactDate l =
        (none, errorf "unexpected end-of-file" l) := by
      simp only [lexPlainXactDate, hpk]
    rw [hstep]
    exact ⟨rfl, by simp [errorf]⟩
  · intro l c hp heol
    have hpk : peek l = some c := hp
    have heol' : c = '\r' ∨ c = '\n' := by
      simpa [isEndOfLine] using heol
    have hdig : ¬((isDigit c || c = '.' || c = '-' || c = '/') = true) := by
      rcases heol' with rfl | rfl <;> decide
    have hnsp : ¬(isSpace c = true) := by
      rcases heol' with rfl | rfl <;> decide
    have hstep : lexPlainXactDate l =
        (none, errorf "unexpected end-of-line" l) := by
      simp only [lexPlainXactDate, hpk]
      rw [if_neg hdig, if_neg hnsp, if_pos heol]
    rw [hstep]
    exact ⟨rfl, by simp [errorf]⟩
  · intro l c hp hd h1 h2 h3 hnsp hneol
    have hpk : peek l = some c := hp
    have hdig : ¬((isDigit c || c = '.' || c = '-' || c = '/') = true) := by
      simp [hd, h1, h2, h3]
    have hstep : lexPlainXactDate l = (none,
        errorf ("invalid character in transaction date specification: " ++
          goFormatRune (some c)) l) := by
      simp only [lexPlainXactDate, hpk]
      rw [if_neg hdig, if_neg (by simp [hnsp]), if_neg (by simp [hneol])]
    rw [hstep]
    exact ⟨rfl, by simp [errorf]⟩

/-- C4 witness: the four boundary cases at concrete dates: "1 " (space),
"1" (eof), "1\n" (end-of-line), and "1x" (invalid character), each entered
with the digit already consumed. -/
theorem claim_C4_witness :
    ((lexPlainXactDate ⟨"1 ".data, 1, 0, []⟩).1 = some scanState.plainXactRest ∧
      (lexPlainXactDate ⟨"1 ".data, 1, 0, []⟩).2.items = [] ++
        [⟨.itemDate, 0, slice "1 ".data 0 1⟩,
         ⟨.itemSpace, 1, ("1 ".data.drop 1).takeWhile isSpace⟩]) ∧
    ((lexPlainXactDate ⟨"1".data, 1, 0, []⟩).1 = none ∧
      (lexPlainXactDate ⟨"1".data, 1, 0, []⟩).2.items = [] ++
        [⟨.itemError, 0, "unexpected end-of-file".data⟩]) ∧
    ((lexPlainXactDate ⟨"1\n".data, 1, 0, []⟩).1 = none ∧
      (lexPlainXactDate ⟨"1\n".data, 1, 0, []⟩).2.items = [] ++
        [⟨.itemError, 0, "unexpected end-of-line".data⟩]) ∧
    ((lexPlainXactDate ⟨"1x".data, 1, 0, []⟩).1 = none ∧
      (lexPlainXactDate ⟨"1x".data, 1, 0, []⟩).2.items = [] ++
        [⟨.itemError, 0,
          ("invalid character in transaction date specification: " ++
            goFormatRune (some 'x')).data⟩]) :=
  ⟨claim_C4_date_boundary.1 ⟨"1 ".data, 1, 0, []⟩ ' ' (by decide) (by decide),
   claim_C4_date_boundary.2.1 ⟨"1".data, 1, 0, []⟩ (by decide),
   claim_C4_date_boundary.2.2.1 ⟨"1\n".data, 1, 0, []⟩ '\n' (by decide) (by decide),
   claim_C4_date_boundary.2.2.2 ⟨"1x".data, 1, 0, []⟩ 'x' (by decide) (by decide)
     (by decide) (by decide) (by decide) (by decide) (by decide)⟩

/-- scanSpaces when exactly one rune, a space `c`, has been consumed since
the lexeme start: it absorbs the rest of the run and emits the whole run
(from the lexeme start) as one itemSpace token. -/
theorem scanSpaces_after1 {l : lexer} {c : Char} (hst : l.pos = l.start + 1)
    (hc : l.input[l.start]? = some c) (hcsp : isSpace c = true) :
    (scanSpaces l).2 = { l with
      pos := l.start + ((l.input.drop l.start).takeWhile isSpace).length,
      start := l.start + ((l.input.drop l.start).takeWhile isSpace).length,
      items := l.items ++
        [⟨.itemSpace, l.start, (l.input.drop l.start).takeWhile isSpace⟩] } := by
  have hd := drop_cons_of_getElem? hc
  have htw : (l.input.drop l.start).takeWhile isSpace =
      c :: (l.input.drop (l.start + 1)).takeWhile isSpace := by
    rw [hd]
    simp [List.takeWhile_cons, hcsp]
  have hdp : l.input.drop l.pos = l.input.drop (l.start + 1) := by rw [hst]
  have hcur : current (scanRun isSpace l) =
      (l.input.drop l.start).takeWhile isSpace := by
    show slice l.input l.start
      (l.pos + ((l.input.drop l.pos).takeWhile isSpace).length) = _
    rw [hdp, hst]
    unfold slice
    have harith : l.start + 1 +
        ((l.input.drop (l.start + 1)).takeWhile isSpace).length - l.start =
        ((l.input.drop (l.start + 1)).takeWhile isSpace).length + 1 := by
      omega
    rw [harith, htw, hd, List.take_succ_cons, take_tw]
  have hne : current (scanRun isSpace l) ≠ [] := by
    rw [hcur, htw]
    simp
  have hfin : (scanRun isSpace l).pos =
      l.start + ((l.input.drop l.start).takeWhile isSpace).length := by
    show l.pos + ((l.input.drop l.pos).takeWhile isSpace).length = _
    rw [hdp, htw, hst]
    simp only [List.length_cons]
    omega
  unfold scanSpaces
  rw [if_neg hne]
  show emit .itemSpace (scanRun isSpace l) = _
  unfold emit
  rw [hcur, hfin]
  rfl

/-- C8 counterexample: in the postings state with expect-indent true, the
next rune being the (non-whitespace) end-of-line rune, the claim as stated
requires the rune to be pushed back and control returned to TopLevel; the
scanner instead consumes it, emits EndOfLine, and stays in the postings
state. -/
theorem claim_C8_counterexample :
    isSpace '\n' = false ∧
    (lexPostings true ⟨['\n'], 0, 0, []⟩).1 ≠ some scanState.journal ∧
    (lexPostings true ⟨['\n'], 0, 0, []⟩).1 = some (scanState.postings true) ∧
    (lexPostings true ⟨['\n'], 0, 0, []⟩).2.pos ≠ (⟨['\n'], 0, 0, []⟩ : lexer).pos := by
  decide

/-- C8 (amended): in the PostingsBlock state with expect-indent true: a
whitespace rune makes the whole space run one Whitespace token and
re-enters the state; an end-of-line rune is consumed and emitted as
EndOfLine with expect-indent still true; any other rune — and end-of-input
— is pushed back unconsumed and control returns to TopLevel, the returned
lexer being exactly the entry lexer. -/
theorem claim_C8_postings_indent :
    (∀ (l : lexer) (c : Char), l.input[l.pos]? = some c → isSpace c = true →
      l.start = l.pos →
      lexPostings true l = (some (scanState.postings false),
        { l with
          pos := l.pos + ((l.input.drop l.pos).takeWhile isSpace).length,
          start := l.pos + ((l.input.drop l.pos).takeWhile isSpace).length,
          items := l.items ++
            [⟨.itemSpace, l.pos, (l.input.drop l.pos).takeWhile isSpace⟩] })) ∧
    (∀ (l : lexer) (c : Char), l.input[l.pos]? = some c →
      isEndOfLine c = true → l.start = l.pos →
      lexPostings true l = (some (scanState.postings true),
        { l with
          pos := l.pos + 1,
          start := l.pos + 1,
          items := l.items ++ [⟨.itemEOL, l.pos, [c]⟩] })) ∧
    (∀ (l : lexer) (c : Char), l.input[l.pos]? = some c → isSpace c = false →
      isEndOfLine c = false →
      lexPostings true l = (some scanState.journal, l)) ∧
    (∀ (l : lexer), l.input[l.pos]? = none →
      lexPostings true l = (some scanState.journal, l)) := by
  refine ⟨?_, ?_, ?_, ?_⟩
  · intro l c hp hsp hst
    have hn : next l = (some c, { l with pos := l.pos + 1 }) := by
      unfold next
      rw [hp]
    have hneol : ¬(isEndOfLine c = true) := by
      have hsp' : c = ' ' ∨ c = '\t' := by simpa [isSpace] using hsp
      rcases hsp' with rfl | rfl <;> decide
    simp only [lexPostings, hn]
    rw [if_neg hneol, if_pos trivial, if_pos hsp]
    have hs2 := scanSpaces_after1 (l := { l with pos := l.pos + 1 })
      (c := c) (by simp [hst]) (by simpa [hst] using hp) hsp
    rw [hs2]
    simp [hst]
  · intro l c hp heol hst
    have hn : next l = (some c, { l with pos := l.pos + 1 }) := by
      unfold next
      rw [hp]
    simp only [lexPostings, hn]
    rw [if_pos heol]
    unfold emit
    have hcur : current { l with pos := l.pos + 1 } = [c] := by
      show slice l.input l.start (l.pos + 1) = [c]
      unfold slice
      rw [hst, Nat.add_sub_cancel_left, drop_cons_of_getElem? hp]
      rfl
    rw [hcur]
    simp [hst]
  · intro l c hp hnsp hneol
    have hn : next l = (some c, { l with pos := l.pos + 1 }) := by
      unfold next
      rw [hp]
    simp only [lexPostings, hn]
    rw [if_neg (by simp [hneol]), if_pos trivial, if_neg (by simp [hnsp])]
  · intro l hp
    have hn : next l = (none, l) := by
      unfold next
      rw [hp]
    simp only [lexPostings, hn]
    rw [if_pos trivial]

/-- C8 witness: the four postings-with-expect-indent cases at concrete
inputs: an indented line (space), a blank line (newline), a non-indented
letter line, and end-of-input. -/
theorem claim_C8_witness :
    (lexPostings true ⟨" a".data, 0, 0, []⟩ = (some (scanState.postings false),
      ⟨" a".data, 0 + ((" a".data.drop 0).takeWhile isSpace).length,
        0 + ((" a".data.drop 0).takeWhile isSpace).length,
        [] ++ [⟨.itemSpace, 0, (" a".data.drop 0).takeWhile isSpace⟩]⟩)) ∧
    (lexPostings true ⟨"\n".data, 0, 0, []⟩ = (some (scanState.postings true),
      ⟨"\n".data, 0 + 1, 0 + 1, [] ++ [⟨.itemEOL, 0, ['\n']⟩]⟩)) ∧
    (lexPostings true ⟨"z".data, 0, 0, []⟩ = (some scanState.journal,
      ⟨"z".data, 0, 0, []⟩)) ∧
    (lexPostings true ⟨([] : List Char), 0, 0, []⟩ = (some scanState.journal,
      ⟨([] : List Char), 0, 0, []⟩)) :=
  ⟨claim_C8_postings_indent.1 ⟨" a".data, 0, 0, []⟩ ' ' (by decide) (by decide) rfl,
   claim_C8_postings_indent.2.1 ⟨"\n".data, 0, 0, []⟩ '\n' (by decide) (by decide) rfl,
   claim_C8_postings_indent.2.2.1 ⟨"z".data, 0, 0, []⟩ 'z' (by decide) (by decide)
     (by decide),
   claim_C8_postings_indent.2.2.2 ⟨([] : List Char), 0, 0, []⟩ (by decide)⟩

/-! Bareword-scan facts shared by the identifier claims. -/

theorem term_not_alnum {t : Char}
    (h : isSpace t = true ∨ isEndOfLine t = true) :
    isAlphaNumeric t = false := by
  rcases h with h | h
  · have h' : t = ' ' ∨ t = '\t' := by simpa [isSpace] using h
    rcases h' with rfl | rfl <;> decide
  · have h' : t = '\r' ∨ t = '\n' := by simpa [isEndOfLine] using h
    rcases h' with rfl | rfl <;> decide

theorem scanRun_word {l : lexer} {w rest : List Char}
    (hdrop : l.input.drop l.pos = w ++ rest)
    (hw : ∀ a ∈ w, isAlphaNumeric a = true)
    (hrest : rest = [] ∨
      ∃ t rest', rest = t :: rest' ∧ isAlphaNumeric t = false) :
    scanRun isAlphaNumeric l = { l with pos := l.pos + w.length } := by
  unfold scanRun
  rw [hdrop, tw_append_all _ _ _ hw]
  rcases hrest with rfl | ⟨t, rest', rfl, ht⟩
  · simp
  · rw [tw_cons_false _ _ _ ht]
    simp

theorem current_after_word {l : lexer} {w rest : List Char} {n : Nat}
    (hst : l.start = l.pos) (hdrop : l.input.drop l.pos = w ++ rest)
    (hlen : w.length = n) :
    current { l with pos := l.pos + n } = w := by
  show slice l.input l.start (l.pos + n) = w
  unfold slice
  rw [hst, Nat.add_sub_cancel_left, hdrop, ← hlen, List.take_left]

theorem drop_after_word {l : lexer} {w rest : List Char} {n : Nat}
    (hdrop : l.input.drop l.pos = w ++ rest) (hlen : w.length = n) :
    l.input.drop (l.pos + n) = rest := by
  have h1 : l.input.drop (l.pos + n) = (l.input.drop l.pos).drop n := by
    rw [List.drop_drop]
  rw [h1, hdrop, ← hlen, List.drop_left]

theorem take_len_cons {xs ys : List item} {a : item} :
    (xs ++ a :: ys).take (xs.length + 1) = xs ++ [a] := by
  induction xs with
  | nil => simp
  | cons x xs ih => simpa [List.length_cons] using ih

/-- C10 (confirmed): a bareword immediately followed by end-of-input makes
the scanner emit Error("bad character U+FFFFFFFFFFFFFFFF") and halt (next
state nil), instead of emitting the bareword as an Identifier or keyword
token: atTerminator does not accept eof as a bareword terminator. -/
theorem claim_C10_bareword_eof (l : lexer) (w : List Char)
    (hst : l.start = l.pos) (hdrop : l.input.drop l.pos = w)
    (hne : w ≠ []) (hw : ∀ a ∈ w, isAlphaNumeric a = true) :
    (lexIdentifier l).1 = none ∧
    (lexIdentifier l).2.items = l.items ++
      [⟨.itemError, l.pos, "bad character U+FFFFFFFFFFFFFFFF".data⟩] := by
  have hdrop' : l.input.drop l.pos = w ++ [] := by simpa using hdrop
  have hrun := scanRun_word hdrop' hw (Or.inl rfl)
  have hd' := drop_after_word hdrop' rfl
  have hpk : peek { l with pos := l.pos + w.length } = none := by
    show l.input[l.pos + w.length]? = none
    rw [getElem?_eq_head?_drop, hd']
    rfl
  have hat : atTerminator { l with pos := l.pos + w.length } = false := by
    unfold atTerminator
    rw [hpk]
  unfold lexIdentifier
  rw [hrun]
  unfold lexIdentifierWord
  rw [hat, if_pos (by decide : (!false) = true)]
  refine ⟨rfl, ?_⟩
  show (errorf _ _).items = _
  rw [ext_errorf, hpk]
  have hmsg : ("bad character " ++ goFormatRune none).data =
      "bad character U+FFFFFFFFFFFFFFFF".data := by decide
  rw [hmsg]
  simp [hst]

/-- C10 witness: the bareword "abc" with nothing after it: the scan halts
with the bad-character error and no Identifier token. -/
theorem claim_C10_witness :
    (lexIdentifier ⟨"abc".data, 0, 0, []⟩).1 = none ∧
    (lexIdentifier ⟨"abc".data, 0, 0, []⟩).2.items = [] ++
      [⟨.itemError, 0, "bad character U+FFFFFFFFFFFFFFFF".data⟩] :=
  claim_C10_bareword_eof ⟨"abc".data, 0, 0, []⟩ "abc".data rfl (by decide)
    (by decide) (by decide)

/-- C5 counterexample: the claim reads keyword recognition as a lookup
from the lowercase bareword text. The table entry "P" (the price
directive) is not lowercase: scanning the bareword "P" emits the Price
keyword token, while the claim's lowercase lookup ("p" is not in the
table) predicts a generic Identifier. -/
theorem claim_C5_counterexample :
    (runLex 2 "P\n".data).2.items = [⟨.itemPrice, 0, ['P']⟩] ∧
    keywordKindSpec "P".data = .itemIdentifier ∧
    itemType.itemPrice ≠ .itemIdentifier := by
  decide

/-- C5 (amended): keyword recognition for a completed bareword is a static
case-sensitive lookup from the bareword's exact text (table keys
"include", "account", "end", "alias", "P" — all lowercase except the price
directive "P"), and every bareword not in the table is emitted as a
generic Identifier token: the first token emitted for the bareword has
exactly the looked-up kind. -/
theorem claim_C5_keyword_lookup (l : lexer) (w : List Char) (t : Char)
    (rest : List Char) (hst : l.start = l.pos)
    (hdrop : l.input.drop l.pos = w ++ t :: rest) (hne : w ≠ [])
    (hw : ∀ a ∈ w, isAlphaNumeric a = true)
    (hterm : isSpace t = true ∨ isEndOfLine t = true) :
    ((lexIdentifier l).2.items).take (l.items.length + 1) =
      l.items ++ [⟨(keywordLookup w).getD .itemIdentifier, l.pos, w⟩] := by
  have halnum := term_not_alnum hterm
  have hrun := scanRun_word hdrop hw (Or.inr ⟨t, rest, rfl, halnum⟩)
  have hd' := drop_after_word hdrop rfl
  have hpk : peek { l with pos := l.pos + w.length } = some t :=
    getElem?_of_drop_cons hd'
  have hat : atTerminator { l with pos := l.pos + w.length } = true := by
    unfold atTerminator
    rw [hpk]
    rcases hterm with ht | ht <;> simp [ht]
  have hword : current { l with pos := l.pos + w.length } = w :=
    current_after_word hst hdrop rfl
  unfold lexIdentifier
  rw [hrun]
  unfold lexIdentifierWord
  rw [hat, if_neg (by decide : ¬((!true) = true))]
  by_cases hi : current { l with pos := l.pos + w.length } = "include".data
  · rw [if_pos hi]
    rw [hword] at hi
    have hkey : (keywordLookup w).getD .itemIdentifier = .itemInclude := by
      rw [hi]
      decide
    have hEitems : (emit .itemInclude { l with pos := l.pos + w.length }).items =
        l.items ++ [⟨.itemInclude, l.pos, w⟩] := by
      unfold emit
      rw [hword]
      simp [hst]
    rw [hkey]
    split
    next l' hm =>
      have h1 := ext_scanSpaces (emit .itemInclude { l with pos := l.pos + w.length })
      have h2 := ext_scanStringToEOL
        (scanSpaces (emit .itemInclude { l with pos := l.pos + w.length })).2
      rw [hm] at h2
      obtain ⟨-, -, its, hits, -⟩ := ext_trans h1 h2
      show (errorf missingFilenameMsg l').items.take (l.items.length + 1) = _
      rw [ext_errorf, hits, hEitems]
      simp only [List.append_assoc, List.cons_append, List.nil_append]
      exact take_len_cons
    next l' hm =>
      have h1 := ext_scanSpaces (emit .itemInclude { l with pos := l.pos + w.length })
      have h2 := ext_scanStringToEOL
        (scanSpaces (emit .itemInclude { l with pos := l.pos + w.length })).2
      rw [hm] at h2
      obtain ⟨-, -, its, hits, -⟩ := ext_trans h1 h2
      show l'.items.take (l.items.length + 1) = _
      rw [hits, hEitems]
      cases its with
      | nil =>
        simp only [List.append_assoc, List.cons_append, List.append_nil,
          List.nil_append]
        exact take_len_cons
      | cons i its' =>
        simp only [List.append_assoc, List.cons_append, List.nil_append]
        exact take_len_cons
  · rw [if_neg hi]
    rw [hword] at hi
    by_cases he2 : current { l with pos := l.pos + w.length } = "end".data
    · rw [if_pos he2]
      rw [hword] at he2
      have hkey : (keywordLookup w).getD .itemIdentifier = .itemEnd := by
        rw [he2]
        decide
      have hEitems : (emit .itemEnd { l with pos := l.pos + w.length }).items =
          l.items ++ [⟨.itemEnd, l.pos, w⟩] := by
        unfold emit
        rw [hword]
        simp [hst]
      rw [hkey]
      obtain ⟨-, -, its, hits, -⟩ :=
        ext_scanSpaces (emit .itemEnd { l with pos := l.pos + w.length })
      show (scanSpaces (emit .itemEnd { l with pos := l.pos + w.length })).2.items.take
        (l.items.length + 1) = _
      rw [hits, hEitems]
      cases its with
      | nil =>
        simp only [List.append_assoc, List.cons_append, List.append_nil,
          List.nil_append]
        exact take_len_cons
      | cons i its' =>
        simp only [List.append_assoc, List.cons_append, List.nil_append]
        exact take_len_cons
    · rw [if_neg he2]
      rw [hword] at he2
      by_cases hk : itemType.itemKeyword.iota <
          (key (current { l with pos := l.pos + w.length })).iota
      · rw [if_pos hk]
        rw [hword] at hk
        have hkey : (keywordLookup w).getD .itemIdentifier = key w := by
          by_cases ha : w = "account".data
          · rw [ha]
            decide
          · by_cases hal : w = "alias".data
            · rw [hal]
              decide
            · by_cases hP : w = "P".data
              · rw [hP]
                decide
              · exfalso
                have hzero : key w = .itemError := by
                  unfold key
                  rw [if_neg hi, if_neg ha, if_neg he2, if_neg hal, if_neg hP]
                rw [hzero] at hk
                simp [itemType.iota] at hk
        show (emit (key (current { l with pos := l.pos + w.length }))
          { l with pos := l.pos + w.length }).items.take (l.items.length + 1) = _
        unfold emit
        rw [hword, hkey, hst]
        exact take_len_cons
      · rw [if_neg hk]
        rw [hword] at hk
        have ha : ¬(w = "account".data) := by
          intro hEq
          apply hk
          rw [hEq]
          decide
        have hal : ¬(w = "alias".data) := by
          intro hEq
          apply hk
          rw [hEq]
          decide
        have hP : ¬(w = "P".data) := by
          intro hEq
          apply hk
          rw [hEq]
          decide
        have hkey : (keywordLookup w).getD .itemIdentifier = .itemIdentifier := by
          have hnone : keywordLookup w = none := by
            unfold keywordLookup
            rw [if_neg hi, if_neg ha, if_neg he2, if_neg hal, if_neg hP]
          rw [hnone]
          rfl
        show (emit .itemIdentifier
          { l with pos := l.pos + w.length }).items.take (l.items.length + 1) = _
        unfold emit
        rw [hword, hkey, hst]
        exact take_len_cons

/-- C5 witness: the bareword "alias" followed by a space is recognized as
the Alias keyword via the table; the first emitted token carries that
kind. -/
theorem claim_C5_witness :
    ((lexIdentifier ⟨"alias ".data, 0, 0, []⟩).2.items).take
      (([] : List item).length + 1) =
      [] ++ [⟨(keywordLookup "alias".data).getD .itemIdentifier, 0, "alias".data⟩] :=
  claim_C5_keyword_lookup ⟨"alias ".data, 0, 0, []⟩ "alias".data ' ' []
    rfl (by decide) (by decide) (by decide) (Or.inl (by decide))

/-- scanSpaces when the lexeme is empty and no space follows: a no-op that
emits nothing. -/
theorem scanSpaces_none {l : lexer} (hst : l.start = l.pos)
    (h : (l.input.drop l.pos).takeWhile isSpace = []) :
    scanSpaces l = (false, l) := by
  have hcur : current (scanRun isSpace l) = [] := by
    show slice l.input l.start
      (l.pos + ((l.input.drop l.pos).takeWhile isSpace).length) = []
    rw [h]
    unfold slice
    rw [hst]
    simp
  unfold scanSpaces
  rw [if_pos hcur]
  unfold scanRun
  rw [h]
  rfl

/-- scanStringToEOL when the lexeme is empty and the cursor is at
end-of-line or end-of-input: a no-op reporting false. -/
theorem scanStringToEOL_empty {l : lexer} (hst : l.start = l.pos)
    (h : (l.input.drop l.pos).takeWhile (fun c => !(isEndOfLine c)) = []) :
    scanStringToEOL l = (false, l) := by
  have hcur : current (scanRun (fun c => !(isEndOfLine c)) l) = [] := by
    show slice l.input l.start
      (l.pos + ((l.input.drop l.pos).takeWhile (fun c => !(isEndOfLine c))).length) = []
    rw [h]
    unfold slice
    rw [hst]
    simp
  unfold scanStringToEOL
  rw [if_pos hcur]
  unfold scanRun
  rw [h]
  rfl

/-- scanStringToEOL when the lexeme is empty and at least one non-eol rune
follows: it consumes up to the end of the line and emits that text as one
itemString token. -/
theorem scanStringToEOL_text {l : lexer} (hst : l.start = l.pos)
    (h : (l.input.drop l.pos).takeWhile (fun c => !(isEndOfLine c)) ≠ []) :
    scanStringToEOL l = (true, { l with
      pos := l.pos +
        ((l.input.drop l.pos).takeWhile (fun c => !(isEndOfLine c))).length,
      start := l.pos +
        ((l.input.drop l.pos).takeWhile (fun c => !(isEndOfLine c))).length,
      items := l.items ++ [⟨.itemString, l.pos,
        (l.input.drop l.pos).takeWhile (fun c => !(isEndOfLine c))⟩] }) := by
  have hcur : current (scanRun (fun c => !(isEndOfLine c)) l) =
      (l.input.drop l.pos).takeWhile (fun c => !(isEndOfLine c)) := by
    show slice l.input l.start
      (l.pos + ((l.input.drop l.pos).takeWhile (fun c => !(isEndOfLine c))).length) = _
    rw [hst]
    unfold slice
    rw [Nat.add_sub_cancel_left]
    exact take_tw _ _
  have hne : current (scanRun (fun c => !(isEndOfLine c)) l) ≠ [] := by
    rw [hcur]
    exact h
  unfold scanStringToEOL
  rw [if_neg hne]
  show (true, emit .itemString (scanRun (fun c => !(isEndOfLine c)) l)) = _
  unfold emit
  rw [hcur]
  simp [scanRun, hst]

/-- C9 (confirmed): for the bareword "include" followed by a terminator,
the scanner emits the Include keyword token, consumes any following space
run as one Whitespace token, then emits the rest of the line as a String
token (the filename); when nothing remains on the line (end-of-input or
end-of-line right after the spaces) it instead emits Error("missing
filename after 'include'") and the next state is nil. -/
theorem claim_C9_include (l : lexer) (t : Char) (rest : List Char)
    (hst : l.start = l.pos)
    (hdrop : l.input.drop l.pos = "include".data ++ t :: rest)
    (hterm : isSpace t = true ∨ isEndOfLine t = true) :
    (lexIdentifier l).2.items = l.items ++
      ⟨.itemInclude, l.pos, "include".data⟩ ::
      ((if (t :: rest).takeWhile isSpace = [] then []
        else [⟨.itemSpace, l.pos + 7, (t :: rest).takeWhile isSpace⟩]) ++
       (if ((t :: rest).dropWhile isSpace).takeWhile (fun c => !(isEndOfLine c)) = []
        then [⟨.itemError, l.pos + 7 + ((t :: rest).takeWhile isSpace).length,
          missingFilenameMsg.data⟩]
        else [⟨.itemString, l.pos + 7 + ((t :: rest).takeWhile isSpace).length,
          ((t :: rest).dropWhile isSpace).takeWhile (fun c => !(isEndOfLine c))⟩])) ∧
    (lexIdentifier l).1 =
      (if ((t :: rest).dropWhile isSpace).takeWhile (fun c => !(isEndOfLine c)) = []
       then none else some scanState.journal) := by
  have halnum := term_not_alnum hterm
  have h7 : ("include".data).length = 7 := by decide
  have hrun := scanRun_word hdrop (by decide) (Or.inr ⟨t, rest, rfl, halnum⟩)
  rw [h7] at hrun
  have hd7 : l.input.drop (l.pos + 7) = t :: rest := by
    have hd := drop_after_word hdrop rfl
    rwa [h7] at hd
  have hpk : peek { l with pos := l.pos + 7 } = some t :=
    getElem?_of_drop_cons hd7
  have hat : atTerminator { l with pos := l.pos + 7 } = true := by
    unfold atTerminator
    rw [hpk]
    rcases hterm with ht | ht <;> simp [ht]
  have hword : current { l with pos := l.pos + 7 } = "include".data :=
    current_after_word hst hdrop h7
  have hEfull : emit .itemInclude { l with pos := l.pos + 7 } =
      { l with
        pos := l.pos + 7,
        start := l.pos + 7,
        items := l.items ++ [⟨.itemInclude, l.pos, "include".data⟩] } := by
    unfold emit
    rw [hword]
    simp [hst]
  unfold lexIdentifier
  rw [hrun]
  unfold lexIdentifierWord
  rw [hat, if_neg (by decide : ¬((!true) = true)), if_pos hword, hEfull]
  by_cases hsp : (t :: rest).takeWhile isSpace = []
  · have htns : isSpace t = false := by
      by_cases hs : isSpace t = true
      · simp [List.takeWhile_cons, hs] at hsp
      · simpa using hs
    have hdw : (t :: rest).dropWhile isSpace = t :: rest := by
      simp [List.dropWhile_cons, htns]
    have hSnone : scanSpaces { l with
        pos := l.pos + 7,
        start := l.pos + 7,
        items := l.items ++ [⟨.itemInclude, l.pos, "include".data⟩] } =
        (false, { l with
          pos := l.pos + 7,
          start := l.pos + 7,
          items := l.items ++ [⟨.itemInclude, l.pos, "include".data⟩] }) := by
      apply scanSpaces_none rfl
      show (l.input.drop (l.pos + 7)).takeWhile isSpace = []
      rw [hd7]
      exact hsp
    rw [hSnone]
    by_cases hfn : ((t :: rest).dropWhile isSpace).takeWhile
        (fun c => !(isEndOfLine c)) = []
    · have hSE := scanStringToEOL_empty (l := { l with
          pos := l.pos + 7,
          start := l.pos + 7,
          items := l.items ++ [⟨.itemInclude, l.pos, "include".data⟩] }) rfl
        (by
          show (l.input.drop (l.pos + 7)).takeWhile (fun c => !(isEndOfLine c)) = []
          rw [hd7]
          rw [hdw] at hfn
          exact hfn)
      rw [hSE]
      refine ⟨?_, ?_⟩
      · show (errorf missingFilenameMsg _).items = _
        rw [ext_errorf]
        rw [if_pos hsp, if_pos hfn]
        simp [hsp]
      · show none = _
        rw [if_pos hfn]
    · have hST := scanStringToEOL_text (l := { l with
          pos := l.pos + 7,
          start := l.pos + 7,
          items := l.items ++ [⟨.itemInclude, l.pos, "include".data⟩] }) rfl
        (by
          show (l.input.drop (l.pos + 7)).takeWhile (fun c => !(isEndOfLine c)) ≠ []
          rw [hd7]
          rw [hdw] at hfn
          exact hfn)
      rw [hST]
      refine ⟨?_, ?_⟩
      · rw [if_pos hsp, if_neg hfn]
        simp [hd7, hdw, hsp]
      · show some scanState.journal = _
        rw [if_neg hfn]
  · have htsp : isSpace t = true := by
      by_cases hs : isSpace t = true
      · exact hs
      · exfalso
        apply hsp
        exact tw_cons_false _ _ _ (by simpa using hs)
    have hpE : l.input[l.pos + 7]? = some t := getElem?_of_drop_cons hd7
    have hS : (scanSpaces { l with
        pos := l.pos + 7,
        start := l.pos + 7,
        items := l.items ++ [⟨.itemInclude, l.pos, "include".data⟩] }).2 =
        { l with
          pos := l.pos + 7 + ((t :: rest).takeWhile isSpace).length,
          start := l.pos + 7 + ((t :: rest).takeWhile isSpace).length,
          items := (l.items ++ [⟨.itemInclude, l.pos, "include".data⟩]) ++
            [⟨.itemSpace, l.pos + 7, (t :: rest).takeWhile isSpace⟩] } := by
      rw [scanSpaces_at_space (l := { l with
        pos := l.pos + 7,
        start := l.pos + 7,
        items := l.items ++ [⟨.itemInclude, l.pos, "include".data⟩] }) rfl hpE htsp]
      simp [hd7]
    rw [hS]
    have hdS : l.input.drop (l.pos + 7 + ((t :: rest).takeWhile isSpace).length) =
        (t :: rest).dropWhile isSpace := by
      have h1 : l.input.drop (l.pos + 7 + ((t :: rest).takeWhile isSpace).length) =
          (l.input.drop (l.pos + 7)).drop ((t :: rest).takeWhile isSpace).length := by
        rw [List.drop_drop]
      rw [h1, hd7, drop_tw]
    by_cases hfn : ((t :: rest).dropWhile isSpace).takeWhile
        (fun c => !(isEndOfLine c)) = []
    · have hSE := scanStringToEOL_empty (l := { l with
          pos := l.pos + 7 + ((t :: rest).takeWhile isSpace).length,
          start := l.pos + 7 + ((t :: rest).takeWhile isSpace).length,
          items := (l.items ++ [⟨.itemInclude, l.pos, "include".data⟩]) ++
            [⟨.itemSpace, l.pos + 7, (t :: rest).takeWhile isSpace⟩] }) rfl
        (by
          show (l.input.drop (l.pos + 7 + ((t :: rest).takeWhile isSpace).length)).takeWhile
            (fun c => !(isEndOfLine c)) = []
          rw [hdS]
          exact hfn)
      rw [hSE]
      refine ⟨?_, ?_⟩
      · show (errorf missingFilenameMsg _).items = _
        rw [ext_errorf]
        rw [if_neg hsp, if_pos hfn]
        simp
      · show none = _
        rw [if_pos hfn]
    · have hST := scanStringToEOL_text (l := { l with
          pos := l.pos + 7 + ((t :: rest).takeWhile isSpace).length,
          start := l.pos + 7 + ((t :: rest).takeWhile isSpace).length,
          items := (l.items ++ [⟨.itemInclude, l.pos, "include".data⟩]) ++
            [⟨.itemSpace, l.pos + 7, (t :: rest).takeWhile isSpace⟩] }) rfl
        (by
          show (l.input.drop (l.pos + 7 + ((t :: rest).takeWhile isSpace).length)).takeWhile
            (fun c => !(isEndOfLine c)) ≠ []
          rw [hdS]
          exact hfn)
      rw [hST]
      refine ⟨?_, ?_⟩
      · show (_ : lexer).items = _
        rw [if_neg hsp, if_neg hfn]
        show ((l.items ++ [⟨.itemInclude, l.pos, "include".data⟩]) ++
          [⟨.itemSpace, l.pos + 7, (t :: rest).takeWhile isSpace⟩]) ++
          [⟨.itemString, l.pos + 7 + ((t :: rest).takeWhile isSpace).length,
            ((l.input.drop (l.pos + 7 + ((t :: rest).takeWhile isSpace).length)).takeWhile
              (fun c => !(isEndOfLine c)))⟩] = _
        rw [hdS]
        simp
      · show some scanState.journal = _
        rw [if_neg hfn]

/-- C9 witness: "include f" (one space, then a filename) emits Include,
Whitespace, String("f"); "include\n" (nothing after the bareword before
end-of-line) emits Include and then the missing-filename error with the
nil next state. -/
theorem claim_C9_witness :
    ((lexIdentifier ⟨"include f".data, 0, 0, []⟩).2.items = [] ++
      ⟨.itemInclude, 0, "include".data⟩ ::
      ((if (' ' :: "f".data).takeWhile isSpace = [] then []
        else [⟨.itemSpace, 0 + 7, (' ' :: "f".data).takeWhile isSpace⟩]) ++
       (if ((' ' :: "f".data).dropWhile isSpace).takeWhile (fun c => !(isEndOfLine c)) = []
        then [⟨.itemError, 0 + 7 + ((' ' :: "f".data).takeWhile isSpace).length,
          missingFilenameMsg.data⟩]
        else [⟨.itemString, 0 + 7 + ((' ' :: "f".data).takeWhile isSpace).length,
          ((' ' :: "f".data).dropWhile isSpace).takeWhile (fun c => !(isEndOfLine c))⟩])) ∧
      (lexIdentifier ⟨"include f".data, 0, 0, []⟩).1 =
        (if ((' ' :: "f".data).dropWhile isSpace).takeWhile (fun c => !(isEndOfLine c)) = []
         then none else some scanState.journal)) ∧
    ((lexIdentifier ⟨"include\n".data, 0, 0, []⟩).2.items = [] ++
      ⟨.itemInclude, 0, "include".data⟩ ::
      ((if ('\n' :: ([] : List Char)).takeWhile isSpace = [] then []
        else [⟨.itemSpace, 0 + 7, ('\n' :: ([] : List Char)).takeWhile isSpace⟩]) ++
       (if (('\n' :: ([] : List Char)).dropWhile isSpace).takeWhile
          (fun c => !(isEndOfLine c)) = []
        then [⟨.itemError, 0 + 7 + (('\n' :: ([] : List Char)).takeWhile isSpace).length,
          missingFilenameMsg.data⟩]
        else [⟨.itemString, 0 + 7 + (('\n' :: ([] : List Char)).takeWhile isSpace).length,
          (('\n' :: ([] : List Char)).dropWhile isSpace).takeWhile
            (fun c => !(isEndOfLine c))⟩])) ∧
      (lexIdentifier ⟨"include\n".data, 0, 0, []⟩).1 =
        (if (('\n' :: ([] : List Char)).dropWhile isSpace).takeWhile
          (fun c => !(isEndOfLine c)) = []
         then none else some scanState.journal)) :=
  ⟨claim_C9_include ⟨"include f".data, 0, 0, []⟩ ' ' "f".data rfl (by decide)
    (Or.inl (by decide)),
   claim_C9_include ⟨"include\n".data, 0, 0, []⟩ '\n' [] rfl (by decide)
    (Or.inr (by decide))⟩

end GoLedger
